import Mathlib

/-!
Verification of the key-replacement operation of `src/collections.rs`
(`MapExt::replace_key` implemented for `HashMap`, `BTreeMap` and `IndexMap`).

The three container variants are shallowly embedded as association lists
(`List (K × V)`); for the insertion-ordered `IndexMap` the list order is the
insertion order, and the index-based primitives used by the source
(`get_index_of`, `swap_remove_index`, `insert_full`, `swap_indices`) are
modelled one-to-one.  A Rust panic (a failed `.expect` or an out-of-bounds
`swap_indices`) is modelled by a distinguished `Outcome.panic` value.
-/

set_option autoImplicit false

/-- The error enum `ReplaceKeyErr` of `src/collections.rs`. -/
inductive ReplaceKeyErr where
  | OldKeyNotExist
  | NewKeyOccupied
deriving DecidableEq, Repr

/-- Result of one `replace_key` call: the returned `Result` together with the
final state of the (mutated-in-place) map; `panic` marks a Rust panic. -/
inductive Outcome (K V : Type) where
  | ok (m : List (K × V))
  | err (e : ReplaceKeyErr) (m : List (K × V))
  | panic
deriving DecidableEq, Repr

/-- The final state of the map after the call, `none` if the call panicked. -/
def Outcome.endMap {K V : Type} : Outcome K V → Option (List (K × V))
  | .ok m => some m
  | .err _ m => some m
  | .panic => none

/-- Whether the call returned `Ok(())`. -/
def Outcome.isOk {K V : Type} : Outcome K V → Bool
  | .ok _ => true
  | _ => false

/-- The number of entries of the map after the call. -/
def Outcome.lengthEnd {K V : Type} (o : Outcome K V) : Option Nat :=
  o.endMap.map List.length

/-- The entry at positional index `i` of the map after the call. -/
def Outcome.entryAtEnd {K V : Type} (o : Outcome K V) (i : Nat) : Option (K × V) :=
  o.endMap.bind fun m => m[i]?

/-- Value lookup in an association list: the value of the first entry whose
key equals `k` (maps never hold duplicate keys, so it is the only one). -/
def lookupKV {K V : Type} [DecidableEq K] : List (K × V) → K → Option V
  | [], _ => none
  | (a, v) :: t, k => if a = k then some v else lookupKV t k

/-- Model of `contains_key`. -/
def containsKey {K V : Type} [DecidableEq K] (m : List (K × V)) (k : K) : Bool :=
  (lookupKV m k).isSome

/-- The value associated to `k` in the map after the call (`none` if `k` is
absent afterwards, or if the call panicked). -/
def Outcome.lookupEnd {K V : Type} [DecidableEq K] (o : Outcome K V) (k : K) : Option V :=
  o.endMap.bind fun m => lookupKV m k

/-- Model of `remove` for `HashMap`/`BTreeMap`: deletes the entry keyed `k`
and returns its value, or `none` when `k` is absent. -/
def removeKV {K V : Type} [DecidableEq K] : List (K × V) → K → Option (V × List (K × V))
  | [], _ => none
  | (a, v) :: t, k =>
    if a = k then some (v, t)
    else (removeKV t k).map fun p => (p.1, (a, v) :: p.2)

/-- The keys of a map, in entry order. -/
def keysOf {K V : Type} (m : List (K × V)) : List K := m.map Prod.fst

/-- Well-formedness of the association-list model: no duplicate keys.  Every
Rust map value satisfies this. -/
def WFmap {K V : Type} [DecidableEq K] (m : List (K × V)) : Prop := (keysOf m).Nodup

instance {K V : Type} [DecidableEq K] (m : List (K × V)) : Decidable (WFmap m) := by
  unfold WFmap; infer_instance

/-- The method names declared on the `MapExt` trait of `src/collections.rs`
(lines 24–37): the trait declares exactly one operation. -/
def MapExt.methods : List String := ["replace_key"]

namespace HashMap

variable {K V : Type} [DecidableEq K]

/-- Model of `HashMap::insert`: if the key is present its value is updated
(the stored key is kept), otherwise the entry is added. -/
def insert : List (K × V) → K → V → List (K × V)
  | [], k, v => [(k, v)]
  | (a, w) :: t, k, v => if a = k then (a, v) :: t else (a, w) :: insert t k v

/-- `MapExt::replace_key` for `HashMap` (src/collections.rs:45-61). -/
def replace_key (m : List (K × V)) (k1 k2 : K) : Outcome K V :=
  if !containsKey m k1 then .err .OldKeyNotExist m
  else if k1 = k2 then .ok m
  else if containsKey m k2 then .err .NewKeyOccupied m
  else
    match removeKV m k1 with
    | none => .panic
    | some (v, m1) => .ok (insert m1 k2 v)

end HashMap

namespace BTreeMap

variable {K V : Type} [DecidableEq K] [LT K] [DecidableRel ((· < ·) : K → K → Prop)]

/-- Model of `BTreeMap::insert` on a key-sorted list: the new entry is placed
at its ordered position; if the key is present its value is updated. -/
def insert : List (K × V) → K → V → List (K × V)
  | [], k, v => [(k, v)]
  | (a, w) :: t, k, v =>
    if k < a then (k, v) :: (a, w) :: t
    else if a = k then (a, v) :: t
    else (a, w) :: insert t k v

/-- `MapExt::replace_key` for `BTreeMap` (src/collections.rs:69-85). -/
def replace_key (m : List (K × V)) (k1 k2 : K) : Outcome K V :=
  if !containsKey m k1 then .err .OldKeyNotExist m
  else if k1 = k2 then .ok m
  else if containsKey m k2 then .err .NewKeyOccupied m
  else
    match removeKV m k1 with
    | none => .panic
    | some (v, m1) => .ok (insert m1 k2 v)

end BTreeMap

namespace IndexMap

variable {K V : Type} [DecidableEq K]

/-- Model of `IndexMap::get_index_of`: positional index of the entry keyed
`k`. -/
def get_index_of : List (K × V) → K → Option Nat
  | [], _ => none
  | (a, _) :: t, k => if a = k then some 0 else (get_index_of t k).map (· + 1)

/-- Model of `IndexMap::swap_remove_index`: remove the entry at index `i` by
swapping it with the last entry and popping; `none` when out of bounds. -/
def swap_remove_index (m : List (K × V)) (i : Nat) : Option ((K × V) × List (K × V)) :=
  match m[i]?, m.getLast? with
  | some e, some last => some (e, (m.set i last).dropLast)
  | _, _ => none

/-- Model of `IndexMap::insert_full`: update in place when the key is
present, otherwise append at the end; returns the entry's index. -/
def insert_full : List (K × V) → K → V → Nat × List (K × V)
  | [], k, v => (0, [(k, v)])
  | (a, w) :: t, k, v =>
    if a = k then (0, (a, v) :: t)
    else
      let p := insert_full t k v
      (p.1 + 1, (a, w) :: p.2)

/-- Model of `IndexMap::swap_indices`: exchange the entries at indices `i`
and `j`; `none` models the panic on an out-of-bounds index. -/
def swap_indices (m : List (K × V)) (i j : Nat) : Option (List (K × V)) :=
  match m[i]?, m[j]? with
  | some ei, some ej => some ((m.set i ej).set j ei)
  | _, _ => none

/-- `MapExt::replace_key` for `IndexMap` (src/collections.rs:94-117). -/
def replace_key (m : List (K × V)) (k1 k2 : K) : Outcome K V :=
  match get_index_of m k1 with
  | none => .err .OldKeyNotExist m
  | some i =>
    if k1 = k2 then .ok m
    else if containsKey m k2 then .err .NewKeyOccupied m
    else
      match swap_remove_index m i with
      | none => .err .OldKeyNotExist m
      | some ((_, v), m2) =>
        match insert_full m2 k2 v with
        | (j, m3) =>
          match swap_indices m3 i j with
          | none => .panic
          | some m4 => .ok m4

end IndexMap

section ListMapLemmas

variable {K V : Type} [DecidableEq K]

theorem lookupKV_eq_none_iff {m : List (K × V)} {k : K} :
    lookupKV m k = none ↔ ∀ p ∈ m, p.1 ≠ k := by
  induction m with
  | nil => simp [lookupKV]
  | cons hd t ih =>
    obtain ⟨a, v⟩ := hd
    by_cases h : a = k
    · subst h; simp [lookupKV]
    · simp [lookupKV, h, ih]

theorem lookupKV_eq_none_iff_not_mem_keys {m : List (K × V)} {k : K} :
    lookupKV m k = none ↔ k ∉ keysOf m := by
  rw [lookupKV_eq_none_iff]
  unfold keysOf
  constructor
  · intro h hk
    obtain ⟨p, hp, hpk⟩ := List.mem_map.mp hk
    exact h p hp hpk
  · intro h p hp hpk
    exact h (List.mem_map.mpr ⟨p, hp, hpk⟩)

theorem containsKey_eq_false_iff {m : List (K × V)} {k : K} :
    containsKey m k = false ↔ lookupKV m k = none := by
  cases h : lookupKV m k <;> simp [containsKey, h]

theorem containsKey_eq_true_iff {m : List (K × V)} {k : K} :
    containsKey m k = true ↔ ∃ v, lookupKV m k = some v := by
  cases h : lookupKV m k <;> simp [containsKey, h]

theorem WFmap_cons {a : K} {v : V} {t : List (K × V)} :
    WFmap ((a, v) :: t) ↔ a ∉ keysOf t ∧ WFmap t := by
  simp [WFmap, keysOf]

theorem removeKV_isSome {m : List (K × V)} {k : K} (h : containsKey m k = true) :
    (removeKV m k).isSome := by
  induction m with
  | nil => simp [containsKey, lookupKV] at h
  | cons hd t ih =>
    obtain ⟨a, v⟩ := hd
    by_cases hak : a = k
    · simp [removeKV, hak]
    · have ht : containsKey t k = true := by
        simpa [containsKey, lookupKV, hak] using h
      simpa [removeKV, hak] using ih ht

theorem removeKV_lookup_eq {m : List (K × V)} {k : K} {v : V} {m1 : List (K × V)}
    (h : removeKV m k = some (v, m1)) : lookupKV m k = some v := by
  induction m generalizing v m1 with
  | nil => simp [removeKV] at h
  | cons hd t ih =>
    obtain ⟨a, w⟩ := hd
    by_cases hak : a = k
    · simp only [removeKV, if_pos hak, Option.some.injEq, Prod.mk.injEq] at h
      obtain ⟨h1, -⟩ := h
      simp [lookupKV, if_pos hak, h1]
    · cases hr : removeKV t k with
      | none =>
        rw [removeKV, if_neg hak, hr] at h
        simp at h
      | some p =>
        obtain ⟨p1, p2⟩ := p
        rw [removeKV, if_neg hak, hr] at h
        simp only [Option.map_some', Option.some.injEq, Prod.mk.injEq] at h
        obtain ⟨h1, -⟩ := h
        simp only [lookupKV, if_neg hak]
        exact h1 ▸ ih hr

theorem removeKV_lookup_ne {m : List (K × V)} {k : K} {v : V} {m1 : List (K × V)}
    (h : removeKV m k = some (v, m1)) {q : K} (hq : q ≠ k) :
    lookupKV m1 q = lookupKV m q := by
  induction m generalizing v m1 with
  | nil => simp [removeKV] at h
  | cons hd t ih =>
    obtain ⟨a, w⟩ := hd
    by_cases hak : a = k
    · simp only [removeKV, if_pos hak, Option.some.injEq, Prod.mk.injEq] at h
      obtain ⟨-, h2⟩ := h
      subst h2
      have haq : ¬ a = q := fun hc => hq (hc ▸ hak)
      simp [lookupKV, haq]
    · cases hr : removeKV t k with
      | none =>
        rw [removeKV, if_neg hak, hr] at h
        simp at h
      | some p =>
        obtain ⟨p1, p2⟩ := p
        rw [removeKV, if_neg hak, hr] at h
        simp only [Option.map_some', Option.some.injEq, Prod.mk.injEq] at h
        obtain ⟨-, h2⟩ := h
        subst h2
        by_cases haq : a = q
        · simp [lookupKV, haq]
        · simp only [lookupKV, if_neg haq]
          exact ih hr

theorem removeKV_lookup_self {m : List (K × V)} {k : K} {v : V} {m1 : List (K × V)}
    (hwf : WFmap m) (h : removeKV m k = some (v, m1)) : lookupKV m1 k = none := by
  induction m generalizing v m1 with
  | nil => simp [removeKV] at h
  | cons hd t ih =>
    obtain ⟨a, w⟩ := hd
    obtain ⟨hna, hwt⟩ := WFmap_cons.mp hwf
    by_cases hak : a = k
    · simp only [removeKV, if_pos hak, Option.some.injEq, Prod.mk.injEq] at h
      obtain ⟨-, h2⟩ := h
      subst h2
      exact lookupKV_eq_none_iff_not_mem_keys.mpr (hak ▸ hna)
    · cases hr : removeKV t k with
      | none =>
        rw [removeKV, if_neg hak, hr] at h
        simp at h
      | some p =>
        obtain ⟨p1, p2⟩ := p
        rw [removeKV, if_neg hak, hr] at h
        simp only [Option.map_some', Option.some.injEq, Prod.mk.injEq] at h
        obtain ⟨-, h2⟩ := h
        subst h2
        simp only [lookupKV, if_neg hak]
        exact ih hwt hr

theorem removeKV_length {m : List (K × V)} {k : K} {v : V} {m1 : List (K × V)}
    (h : removeKV m k = some (v, m1)) : m1.length + 1 = m.length := by
  induction m generalizing v m1 with
  | nil => simp [removeKV] at h
  | cons hd t ih =>
    obtain ⟨a, w⟩ := hd
    by_cases hak : a = k
    · simp only [removeKV, if_pos hak, Option.some.injEq, Prod.mk.injEq] at h
      obtain ⟨-, h2⟩ := h
      subst h2
      simp
    · cases hr : removeKV t k with
      | none =>
        rw [removeKV, if_neg hak, hr] at h
        simp at h
      | some p =>
        obtain ⟨p1, p2⟩ := p
        rw [removeKV, if_neg hak, hr] at h
        simp only [Option.map_some', Option.some.injEq, Prod.mk.injEq] at h
        obtain ⟨-, h2⟩ := h
        subst h2
        simpa using ih hr

end ListMapLemmas

section HashMapLemmas

variable {K V : Type} [DecidableEq K]

theorem hm_lookup_insert_self (m : List (K × V)) (k : K) (v : V) :
    lookupKV (HashMap.insert m k v) k = some v := by
  induction m with
  | nil => simp [HashMap.insert, lookupKV]
  | cons hd t ih =>
    obtain ⟨a, w⟩ := hd
    by_cases hak : a = k
    · simp [HashMap.insert, hak, lookupKV]
    · simp [HashMap.insert, hak, lookupKV, ih]

theorem hm_lookup_insert_ne (m : List (K × V)) {k q : K} (v : V) (hq : q ≠ k) :
    lookupKV (HashMap.insert m k v) q = lookupKV m q := by
  induction m with
  | nil => simp [HashMap.insert, lookupKV, Ne.symm hq]
  | cons hd t ih =>
    obtain ⟨a, w⟩ := hd
    by_cases hak : a = k
    · subst hak
      simp [HashMap.insert, lookupKV, Ne.symm hq]
    · by_cases haq : a = q
      · simp [HashMap.insert, hak, lookupKV, haq, hq]
      · simp [HashMap.insert, hak, lookupKV, haq, ih]

theorem hm_length_insert (m : List (K × V)) {k : K} (v : V) (h : lookupKV m k = none) :
    (HashMap.insert m k v).length = m.length + 1 := by
  induction m with
  | nil => simp [HashMap.insert]
  | cons hd t ih =>
    obtain ⟨a, w⟩ := hd
    by_cases hak : a = k
    · subst hak
      simp [lookupKV] at h
    · have ht : lookupKV t k = none := by simpa [lookupKV, hak] using h
      simp [HashMap.insert, hak, ih ht]

theorem hm_replace_key_of_old_absent (m : List (K × V)) (k1 k2 : K)
    (hc : containsKey m k1 = false) :
    HashMap.replace_key m k1 k2 = .err .OldKeyNotExist m := by
  simp [HashMap.replace_key, hc]

theorem hm_replace_key_of_eq_keys (m : List (K × V)) (k1 k2 : K)
    (hc : containsKey m k1 = true) (heq : k1 = k2) :
    HashMap.replace_key m k1 k2 = .ok m := by
  subst heq
  simp [HashMap.replace_key, hc]

theorem hm_replace_key_of_occupied (m : List (K × V)) (k1 k2 : K)
    (hc1 : containsKey m k1 = true) (hne : k1 ≠ k2) (hc2 : containsKey m k2 = true) :
    HashMap.replace_key m k1 k2 = .err .NewKeyOccupied m := by
  simp [HashMap.replace_key, hc1, hne, hc2]

theorem hm_replace_key_success {m : List (K × V)} {k1 k2 : K} {v : V}
    (h1 : lookupKV m k1 = some v) (hne : k1 ≠ k2) (h2 : lookupKV m k2 = none) :
    ∃ m1, removeKV m k1 = some (v, m1)
      ∧ HashMap.replace_key m k1 k2 = .ok (HashMap.insert m1 k2 v) := by
  have hc1 : containsKey m k1 = true := containsKey_eq_true_iff.mpr ⟨v, h1⟩
  have hc2 : containsKey m k2 = false := containsKey_eq_false_iff.mpr h2
  obtain ⟨p, hp⟩ := Option.isSome_iff_exists.mp (removeKV_isSome hc1)
  obtain ⟨v1, m1⟩ := p
  have hv1 : v1 = v := by
    have hl := removeKV_lookup_eq hp
    rw [h1] at hl
    exact (Option.some.inj hl).symm
  subst hv1
  exact ⟨m1, hp, by simp [HashMap.replace_key, hc1, hne, hc2, hp]⟩

end HashMapLemmas

section BTreeMapLemmas

variable {K V : Type} [DecidableEq K] [LT K] [DecidableRel ((· < ·) : K → K → Prop)]

theorem bt_lookup_insert_self (m : List (K × V)) (k : K) (v : V) :
    lookupKV (BTreeMap.insert m k v) k = some v := by
  induction m with
  | nil => simp [BTreeMap.insert, lookupKV]
  | cons hd t ih =>
    obtain ⟨a, w⟩ := hd
    by_cases hlt : k < a
    · simp [BTreeMap.insert, hlt, lookupKV]
    · by_cases hak : a = k
      · subst hak
        simp [BTreeMap.insert, hlt, lookupKV]
      · simp [BTreeMap.insert, hlt, hak, lookupKV, ih]

theorem bt_lookup_insert_ne (m : List (K × V)) {k q : K} (v : V) (hq : q ≠ k) :
    lookupKV (BTreeMap.insert m k v) q = lookupKV m q := by
  induction m with
  | nil => simp [BTreeMap.insert, lookupKV, Ne.symm hq]
  | cons hd t ih =>
    obtain ⟨a, w⟩ := hd
    by_cases hlt : k < a
    · simp [BTreeMap.insert, hlt, lookupKV, Ne.symm hq]
    · by_cases hak : a = k
      · subst hak
        simp [BTreeMap.insert, hlt, lookupKV, Ne.symm hq]
      · by_cases haq : a = q
        · subst haq
          simp [BTreeMap.insert, hlt, hak, lookupKV]
        · simp [BTreeMap.insert, hlt, hak, lookupKV, haq, ih]

theorem bt_length_insert (m : List (K × V)) {k : K} (v : V) (h : lookupKV m k = none) :
    (BTreeMap.insert m k v).length = m.length + 1 := by
  induction m with
  | nil => simp [BTreeMap.insert]
  | cons hd t ih =>
    obtain ⟨a, w⟩ := hd
    by_cases hlt : k < a
    · simp [BTreeMap.insert, hlt]
    · by_cases hak : a = k
      · subst hak
        simp [lookupKV] at h
      · have ht : lookupKV t k = none := by simpa [lookupKV, hak] using h
        simp [BTreeMap.insert, hlt, hak, ih ht]

theorem bt_replace_key_of_old_absent (m : List (K × V)) (k1 k2 : K)
    (hc : containsKey m k1 = false) :
    BTreeMap.replace_key m k1 k2 = .err .OldKeyNotExist m := by
  simp [BTreeMap.replace_key, hc]

theorem bt_replace_key_of_eq_keys (m : List (K × V)) (k1 k2 : K)
    (hc : containsKey m k1 = true) (heq : k1 = k2) :
    BTreeMap.replace_key m k1 k2 = .ok m := by
  subst heq
  simp [BTreeMap.replace_key, hc]

theorem bt_replace_key_of_occupied (m : List (K × V)) (k1 k2 : K)
    (hc1 : containsKey m k1 = true) (hne : k1 ≠ k2) (hc2 : containsKey m k2 = true) :
    BTreeMap.replace_key m k1 k2 = .err .NewKeyOccupied m := by
  simp [BTreeMap.replace_key, hc1, hne, hc2]

theorem bt_replace_key_success {m : List (K × V)} {k1 k2 : K} {v : V}
    (h1 : lookupKV m k1 = some v) (hne : k1 ≠ k2) (h2 : lookupKV m k2 = none) :
    ∃ m1, removeKV m k1 = some (v, m1)
      ∧ BTreeMap.replace_key m k1 k2 = .ok (BTreeMap.insert m1 k2 v) := by
  have hc1 : containsKey m k1 = true := containsKey_eq_true_iff.mpr ⟨v, h1⟩
  have hc2 : containsKey m k2 = false := containsKey_eq_false_iff.mpr h2
  obtain ⟨p, hp⟩ := Option.isSome_iff_exists.mp (removeKV_isSome hc1)
  obtain ⟨v1, m1⟩ := p
  have hv1 : v1 = v := by
    have hl := removeKV_lookup_eq hp
    rw [h1] at hl
    exact (Option.some.inj hl).symm
  subst hv1
  exact ⟨m1, hp, by simp [BTreeMap.replace_key, hc1, hne, hc2, hp]⟩

end BTreeMapLemmas

section IndexMapLemmas

variable {K V : Type} [DecidableEq K]

theorem im_get_index_of_eq_none_iff {m : List (K × V)} {k : K} :
    IndexMap.get_index_of m k = none ↔ lookupKV m k = none := by
  induction m with
  | nil => simp [IndexMap.get_index_of, lookupKV]
  | cons hd t ih =>
    obtain ⟨a, w⟩ := hd
    by_cases hak : a = k
    · simp [IndexMap.get_index_of, lookupKV, hak]
    · simp [IndexMap.get_index_of, lookupKV, hak, Option.map_eq_none', ih]

theorem im_get_index_of_lt_length {m : List (K × V)} {k : K} {i : Nat}
    (h : IndexMap.get_index_of m k = some i) : i < m.length := by
  induction m generalizing i with
  | nil => simp [IndexMap.get_index_of] at h
  | cons hd t ih =>
    obtain ⟨a, w⟩ := hd
    by_cases hak : a = k
    · simp only [IndexMap.get_index_of, if_pos hak, Option.some.injEq] at h
      subst h
      simp
    · simp only [IndexMap.get_index_of, if_neg hak, Option.map_eq_some'] at h
      obtain ⟨j, hj, hji⟩ := h
      subst hji
      exact Nat.succ_lt_succ (ih hj)

theorem im_get_index_of_spec {m : List (K × V)} {k : K} {i : Nat}
    (h : IndexMap.get_index_of m k = some i) :
    ∃ v, m[i]? = some (k, v) ∧ lookupKV m k = some v := by
  induction m generalizing i with
  | nil => simp [IndexMap.get_index_of] at h
  | cons hd t ih =>
    obtain ⟨a, w⟩ := hd
    by_cases hak : a = k
    · subst hak
      simp only [IndexMap.get_index_of, if_pos] at h
      obtain rfl : (0 : Nat) = i := Option.some.inj h
      exact ⟨w, by simp, by simp [lookupKV]⟩
    · simp only [IndexMap.get_index_of, if_neg hak, Option.map_eq_some'] at h
      obtain ⟨j, hj, hji⟩ := h
      subst hji
      obtain ⟨v, hv1, hv2⟩ := ih hj
      exact ⟨v, by simpa using hv1, by simp [lookupKV, hak, hv2]⟩

theorem im_get_index_of_isSome {m : List (K × V)} {k : K}
    (hc : containsKey m k = true) : ∃ i, IndexMap.get_index_of m k = some i := by
  cases hg : IndexMap.get_index_of m k with
  | none =>
    rw [containsKey_eq_true_iff] at hc
    obtain ⟨v, hv⟩ := hc
    rw [im_get_index_of_eq_none_iff.mp hg] at hv
    cases hv
  | some i => exact ⟨i, rfl⟩

theorem im_insert_full_absent (m : List (K × V)) (k : K) (v : V)
    (h : lookupKV m k = none) :
    IndexMap.insert_full m k v = (m.length, m ++ [(k, v)]) := by
  induction m with
  | nil => simp [IndexMap.insert_full]
  | cons hd t ih =>
    obtain ⟨a, w⟩ := hd
    by_cases hak : a = k
    · subst hak
      simp [lookupKV] at h
    · have ht : lookupKV t k = none := by simpa [lookupKV, hak] using h
      simp [IndexMap.insert_full, hak, ih ht]

omit [DecidableEq K] in
theorem im_swap_remove_index_isSome {m : List (K × V)} {i : Nat} (h : i < m.length) :
    (IndexMap.swap_remove_index m i).isSome := by
  have hmne : m ≠ [] := by
    intro hm
    subst hm
    simp at h
  rw [IndexMap.swap_remove_index, List.getElem?_eq_getElem h, List.getLast?_eq_getLast m hmne]
  rfl

theorem im_replace_key_of_old_absent (m : List (K × V)) (k1 k2 : K)
    (hc : containsKey m k1 = false) :
    IndexMap.replace_key m k1 k2 = .err .OldKeyNotExist m := by
  have h : IndexMap.get_index_of m k1 = none :=
    im_get_index_of_eq_none_iff.mpr (containsKey_eq_false_iff.mp hc)
  simp [IndexMap.replace_key, h]

theorem im_replace_key_of_eq_keys (m : List (K × V)) (k1 k2 : K)
    (hc : containsKey m k1 = true) (heq : k1 = k2) :
    IndexMap.replace_key m k1 k2 = .ok m := by
  subst heq
  obtain ⟨i, hi⟩ := im_get_index_of_isSome hc
  simp [IndexMap.replace_key, hi]

theorem im_replace_key_of_occupied (m : List (K × V)) (k1 k2 : K)
    (hc1 : containsKey m k1 = true) (hne : k1 ≠ k2) (hc2 : containsKey m k2 = true) :
    IndexMap.replace_key m k1 k2 = .err .NewKeyOccupied m := by
  obtain ⟨i, hi⟩ := im_get_index_of_isSome hc1
  simp [IndexMap.replace_key, hi, hne, hc2]

theorem im_replace_key_success {m : List (K × V)} {k1 k2 : K} {i : Nat} {v : V}
    (hidx : IndexMap.get_index_of m k1 = some i) (hv : m[i]? = some (k1, v))
    (hne : k1 ≠ k2) (h2 : lookupKV m k2 = none) :
    IndexMap.replace_key m k1 k2 = .ok (m.set i (k2, v)) := by
  have hlt : i < m.length := im_get_index_of_lt_length hidx
  have hpos : 0 < m.length := Nat.lt_of_le_of_lt (Nat.zero_le i) hlt
  have hmne : m ≠ [] := by
    intro hm
    rw [hm] at hpos
    simp at hpos
  have hc2 : containsKey m k2 = false := containsKey_eq_false_iff.mpr h2
  have hsr : IndexMap.swap_remove_index m i
      = some ((k1, v), (m.set i (m.getLast hmne)).dropLast) := by
    rw [IndexMap.swap_remove_index, hv, List.getLast?_eq_getLast m hmne]
  have hk2m2 : lookupKV ((m.set i (m.getLast hmne)).dropLast) k2 = none := by
    rw [lookupKV_eq_none_iff]
    intro p hp
    rcases List.mem_or_eq_of_mem_set (List.mem_of_mem_dropLast hp) with hmem | hpeq
    · exact lookupKV_eq_none_iff.mp h2 p hmem
    · exact hpeq ▸ lookupKV_eq_none_iff.mp h2 _ (List.getLast_mem hmne)
  have hins := im_insert_full_absent ((m.set i (m.getLast hmne)).dropLast) k2 v hk2m2
  have hm2len : ((m.set i (m.getLast hmne)).dropLast).length = m.length - 1 := by
    simp
  have hLget : m[m.length - 1]? = some (m.getLast hmne) := by
    rw [List.getLast_eq_getElem]
    exact List.getElem?_eq_getElem (by omega)
  simp only [IndexMap.replace_key, hidx, if_neg hne, hc2, Bool.false_eq_true, if_false,
    hsr, hins]
  by_cases hi : i = m.length - 1
  · have hji : ((m.set i (m.getLast hmne)).dropLast).length = i := by
      rw [hm2len, hi]
    have hm3i : ((m.set i (m.getLast hmne)).dropLast ++ [(k2, v)])[i]? = some (k2, v) := by
      rw [List.getElem?_append_right (le_of_eq hji), hji]
      simp
    simp only [hji, IndexMap.swap_indices, hm3i, List.set_set]
    apply congrArg Outcome.ok
    apply List.ext_getElem?
    intro t
    by_cases hti : t = i
    · subst hti
      rw [List.getElem?_set_self (by simp [hm2len]; omega),
        List.getElem?_set_self hlt]
    · rw [List.getElem?_set_ne (fun hc => hti hc.symm),
        List.getElem?_set_ne (fun hc => hti hc.symm)]
      rcases Nat.lt_or_ge t (m.length - 1) with hlt2 | hge
      · rw [List.getElem?_append_left (by rw [hm2len]; omega),
          List.getElem?_dropLast, if_pos (by simp; omega),
          List.getElem?_set_ne (fun hc => hti hc.symm)]
      · have hs1 : ((m.set i (m.getLast hmne)).dropLast ++ [(k2, v)]).length ≤ t := by
          simp [hm2len]
          omega
        rw [List.getElem?_eq_none hs1,
          List.getElem?_eq_none (show m.length ≤ t by omega)]
  · have hilt : i < m.length - 1 := by omega
    have hm3i : ((m.set i (m.getLast hmne)).dropLast ++ [(k2, v)])[i]?
        = some (m.getLast hmne) := by
      rw [List.getElem?_append_left (by rw [hm2len]; omega),
        List.getElem?_dropLast, if_pos (by simp; omega)]
      exact List.getElem?_set_self hlt
    have hm3j : ((m.set i (m.getLast hmne)).dropLast
          ++ [(k2, v)])[((m.set i (m.getLast hmne)).dropLast).length]? = some (k2, v) := by
      rw [List.getElem?_append_right (Nat.le_refl _)]
      simp
    simp only [IndexMap.swap_indices, hm3i, hm3j]
    apply congrArg Outcome.ok
    apply List.ext_getElem?
    intro t
    by_cases hti : t = i
    · subst hti
      rw [List.getElem?_set_ne (by rw [hm2len]; omega),
        List.getElem?_set_self (by simp [hm2len]; omega),
        List.getElem?_set_self hlt]
    · by_cases htj : t = m.length - 1
      · subst htj
        rw [hm2len,
          List.getElem?_set_self (by simp [hm2len]; try omega),
          List.getElem?_set_ne hi, hLget]
      · rw [List.getElem?_set_ne (by rw [hm2len]; omega),
          List.getElem?_set_ne (fun hc => hti hc.symm),
          List.getElem?_set_ne (fun hc => hti hc.symm)]
        rcases Nat.lt_or_ge t (m.length - 1) with hlt2 | hge
        · rw [List.getElem?_append_left (by rw [hm2len]; omega),
            List.getElem?_dropLast, if_pos (by simp; omega),
            List.getElem?_set_ne (fun hc => hti hc.symm)]
        · have hs1 : ((m.set i (m.getLast hmne)).dropLast ++ [(k2, v)]).length ≤ t := by
            simp [hm2len]
            omega
          rw [List.getElem?_eq_none hs1,
            List.getElem?_eq_none (show m.length ≤ t by omega)]

theorem im_lookup_set_fresh {m : List (K × V)} {k1 k2 : K} {i : Nat} (v : V)
    (hidx : IndexMap.get_index_of m k1 = some i) (hfresh : lookupKV m k2 = none) :
    lookupKV (m.set i (k2, v)) k2 = some v := by
  induction m generalizing i with
  | nil => simp [IndexMap.get_index_of] at hidx
  | cons hd t ih =>
    obtain ⟨a, w⟩ := hd
    have hak2 : ¬ a = k2 := by
      intro hc
      rw [lookupKV, if_pos hc] at hfresh
      cases hfresh
    have hfresht : lookupKV t k2 = none := by
      rw [lookupKV, if_neg hak2] at hfresh
      exact hfresh
    by_cases hak : a = k1
    · simp only [IndexMap.get_index_of, if_pos hak] at hidx
      obtain rfl : (0 : Nat) = i := Option.some.inj hidx
      simp [lookupKV]
    · simp only [IndexMap.get_index_of, if_neg hak, Option.map_eq_some'] at hidx
      obtain ⟨j, hj, hji⟩ := hidx
      subst hji
      simp only [List.set_cons_succ, lookupKV, if_neg hak2]
      exact ih hj hfresht

theorem im_lookup_set_old_none {m : List (K × V)} {k1 k2 : K} {i : Nat} (v : V)
    (hwf : WFmap m) (hidx : IndexMap.get_index_of m k1 = some i) (hne : k1 ≠ k2) :
    lookupKV (m.set i (k2, v)) k1 = none := by
  induction m generalizing i with
  | nil => simp [IndexMap.get_index_of] at hidx
  | cons hd t ih =>
    obtain ⟨a, w⟩ := hd
    obtain ⟨hna, hwt⟩ := WFmap_cons.mp hwf
    by_cases hak : a = k1
    · simp only [IndexMap.get_index_of, if_pos hak] at hidx
      obtain rfl : (0 : Nat) = i := Option.some.inj hidx
      simp only [List.set_cons_zero, lookupKV, if_neg (Ne.symm hne)]
      exact lookupKV_eq_none_iff_not_mem_keys.mpr (hak ▸ hna)
    · simp only [IndexMap.get_index_of, if_neg hak, Option.map_eq_some'] at hidx
      obtain ⟨j, hj, hji⟩ := hidx
      subst hji
      simp only [List.set_cons_succ, lookupKV, if_neg hak]
      exact ih hwt hj

theorem im_replace_key_cases (m : List (K × V)) (k1 k2 : K) :
    (containsKey m k1 = false
      ∧ IndexMap.replace_key m k1 k2 = .err .OldKeyNotExist m)
    ∨ (containsKey m k1 = true ∧ k1 = k2 ∧ IndexMap.replace_key m k1 k2 = .ok m)
    ∨ (containsKey m k1 = true ∧ k1 ≠ k2 ∧ containsKey m k2 = true
      ∧ IndexMap.replace_key m k1 k2 = .err .NewKeyOccupied m)
    ∨ (∃ i v, IndexMap.get_index_of m k1 = some i ∧ m[i]? = some (k1, v)
      ∧ lookupKV m k1 = some v ∧ k1 ≠ k2 ∧ lookupKV m k2 = none
      ∧ IndexMap.replace_key m k1 k2 = .ok (m.set i (k2, v))) := by
  by_cases hc1 : containsKey m k1 = true
  · by_cases heq : k1 = k2
    · exact Or.inr (Or.inl ⟨hc1, heq, im_replace_key_of_eq_keys m k1 k2 hc1 heq⟩)
    · by_cases hc2 : containsKey m k2 = true
      · exact Or.inr (Or.inr (Or.inl
          ⟨hc1, heq, hc2, im_replace_key_of_occupied m k1 k2 hc1 heq hc2⟩))
      · obtain ⟨i, hi⟩ := im_get_index_of_isSome hc1
        obtain ⟨v, hv, hl⟩ := im_get_index_of_spec hi
        have h2 : lookupKV m k2 = none :=
          containsKey_eq_false_iff.mp (Bool.not_eq_true _ ▸ hc2)
        exact Or.inr (Or.inr (Or.inr
          ⟨i, v, hi, hv, hl, heq, h2, im_replace_key_success hi hv heq h2⟩))
  · have hc1f : containsKey m k1 = false := Bool.not_eq_true _ ▸ hc1
    exact Or.inl ⟨hc1f, im_replace_key_of_old_absent m k1 k2 hc1f⟩

end IndexMapLemmas

section CasesLemmas

variable {K V : Type} [DecidableEq K]

theorem hm_replace_key_cases (m : List (K × V)) (k1 k2 : K) :
    (containsKey m k1 = false
      ∧ HashMap.replace_key m k1 k2 = .err .OldKeyNotExist m)
    ∨ (containsKey m k1 = true ∧ k1 = k2 ∧ HashMap.replace_key m k1 k2 = .ok m)
    ∨ (containsKey m k1 = true ∧ k1 ≠ k2 ∧ containsKey m k2 = true
      ∧ HashMap.replace_key m k1 k2 = .err .NewKeyOccupied m)
    ∨ (∃ v m1, lookupKV m k1 = some v ∧ k1 ≠ k2 ∧ lookupKV m k2 = none
      ∧ removeKV m k1 = some (v, m1)
      ∧ HashMap.replace_key m k1 k2 = .ok (HashMap.insert m1 k2 v)) := by
  by_cases hc1 : containsKey m k1 = true
  · by_cases heq : k1 = k2
    · exact Or.inr (Or.inl ⟨hc1, heq, hm_replace_key_of_eq_keys m k1 k2 hc1 heq⟩)
    · by_cases hc2 : containsKey m k2 = true
      · exact Or.inr (Or.inr (Or.inl
          ⟨hc1, heq, hc2, hm_replace_key_of_occupied m k1 k2 hc1 heq hc2⟩))
      · obtain ⟨v, hv⟩ := containsKey_eq_true_iff.mp hc1
        have h2 : lookupKV m k2 = none :=
          containsKey_eq_false_iff.mp (Bool.not_eq_true _ ▸ hc2)
        obtain ⟨m1, hrm, hres⟩ := hm_replace_key_success hv heq h2
        exact Or.inr (Or.inr (Or.inr ⟨v, m1, hv, heq, h2, hrm, hres⟩))
  · have hc1f : containsKey m k1 = false := Bool.not_eq_true _ ▸ hc1
    exact Or.inl ⟨hc1f, hm_replace_key_of_old_absent m k1 k2 hc1f⟩

end CasesLemmas

section BTCasesLemmas

variable {K V : Type} [DecidableEq K] [LT K] [DecidableRel ((· < ·) : K → K → Prop)]

theorem bt_replace_key_cases (m : List (K × V)) (k1 k2 : K) :
    (containsKey m k1 = false
      ∧ BTreeMap.replace_key m k1 k2 = .err .OldKeyNotExist m)
    ∨ (containsKey m k1 = true ∧ k1 = k2 ∧ BTreeMap.replace_key m k1 k2 = .ok m)
    ∨ (containsKey m k1 = true ∧ k1 ≠ k2 ∧ containsKey m k2 = true
      ∧ BTreeMap.replace_key m k1 k2 = .err .NewKeyOccupied m)
    ∨ (∃ v m1, lookupKV m k1 = some v ∧ k1 ≠ k2 ∧ lookupKV m k2 = none
      ∧ removeKV m k1 = some (v, m1)
      ∧ BTreeMap.replace_key m k1 k2 = .ok (BTreeMap.insert m1 k2 v)) := by
  by_cases hc1 : containsKey m k1 = true
  · by_cases heq : k1 = k2
    · exact Or.inr (Or.inl ⟨hc1, heq, bt_replace_key_of_eq_keys m k1 k2 hc1 heq⟩)
    · by_cases hc2 : containsKey m k2 = true
      · exact Or.inr (Or.inr (Or.inl
          ⟨hc1, heq, hc2, bt_replace_key_of_occupied m k1 k2 hc1 heq hc2⟩))
      · obtain ⟨v, hv⟩ := containsKey_eq_true_iff.mp hc1
        have h2 : lookupKV m k2 = none :=
          containsKey_eq_false_iff.mp (Bool.not_eq_true _ ▸ hc2)
        obtain ⟨m1, hrm, hres⟩ := bt_replace_key_success hv heq h2
        exact Or.inr (Or.inr (Or.inr ⟨v, m1, hv, heq, h2, hrm, hres⟩))
  · have hc1f : containsKey m k1 = false := Bool.not_eq_true _ ▸ hc1
    exact Or.inl ⟨hc1f, bt_replace_key_of_old_absent m k1 k2 hc1f⟩

end BTCasesLemmas

section SanityChecks

example : HashMap.replace_key [(("k1" : String), (123 : Nat)), ("k2", 456)] "k3" "k2"
    = .err .OldKeyNotExist [("k1", 123), ("k2", 456)] := by decide

example : HashMap.replace_key [(("k1" : String), (123 : Nat)), ("k2", 456)] "k1" "k1"
    = .ok [("k1", 123), ("k2", 456)] := by decide

example : HashMap.replace_key [(("k1" : String), (123 : Nat)), ("k2", 456)] "k1" "k2"
    = .err .NewKeyOccupied [("k1", 123), ("k2", 456)] := by decide

example : (HashMap.replace_key [(("k1" : String), (123 : Nat)), ("k2", 456)] "k1" "k3").endMap
    = some [("k2", 456), ("k3", 123)] := by decide

example : IndexMap.replace_key [(("k1" : String), (123 : Nat)), ("k2", 456)] "k1" "k3"
    = .ok [("k3", 123), ("k2", 456)] := by decide

example : IndexMap.replace_key [((1 : Nat), (10 : Nat)), (2, 20), (3, 30)] 2 9
    = .ok [(1, 10), (9, 20), (3, 30)] := by decide

end SanityChecks

/-- C1: on an `IndexMap` with `k1` present at positional index `i`, `k2`
absent and `k1 ≠ k2`, `replace_key` succeeds and afterwards the renamed entry
`(k2, v)` sits at the same positional index `i` it held before the call (the
map also keeps its length, so the entry is not relocated to the end). -/
theorem claim_C1 {K V : Type} [DecidableEq K] {m : List (K × V)} {k1 k2 : K}
    {i : Nat} {v : V}
    (hidx : IndexMap.get_index_of m k1 = some i) (hv : lookupKV m k1 = some v)
    (hk2 : containsKey m k2 = false) (hne : k1 ≠ k2) :
    (IndexMap.replace_key m k1 k2).isOk = true
      ∧ (IndexMap.replace_key m k1 k2).entryAtEnd i = some (k2, v)
      ∧ (IndexMap.replace_key m k1 k2).lengthEnd = some m.length := by
  obtain ⟨v1, hv1, hl1⟩ := im_get_index_of_spec hidx
  obtain rfl : v = v1 := by
    rw [hv] at hl1
    exact Option.some.inj hl1
  have h2 : lookupKV m k2 = none := containsKey_eq_false_iff.mp hk2
  have hres := im_replace_key_success hidx hv1 hne h2
  rw [hres]
  refine ⟨rfl, ?_, ?_⟩
  · show (m.set i (k2, v))[i]? = some (k2, v)
    exact List.getElem?_set_self (im_get_index_of_lt_length hidx)
  · show some (m.set i (k2, v)).length = some m.length
    simp

/-- C1 witness: renaming the middle entry of a three-entry `IndexMap` keeps
it at index 1. -/
theorem claim_C1_wit :
    (IndexMap.replace_key [((1 : Nat), (10 : Nat)), (2, 20), (3, 30)] 2 9).isOk = true
      ∧ (IndexMap.replace_key [((1 : Nat), (10 : Nat)), (2, 20), (3, 30)] 2 9).entryAtEnd 1
        = some (9, 20)
      ∧ (IndexMap.replace_key [((1 : Nat), (10 : Nat)), (2, 20), (3, 30)] 2 9).lengthEnd
        = some 3 :=
  claim_C1 (by decide) (by decide) (by decide) (by decide)

/-- C3: for each of the three containers, when `k1` is absent `replace_key`
fails with `ReplaceKeyErr::OldKeyNotExist` and returns the container
unchanged, for every `k2` — including `k2 = k1` and `k2` already present —
so the not-found check takes precedence over the equal-keys and occupied-key
outcomes. -/
theorem claim_C3 {K V : Type} [DecidableEq K] [LT K]
    [DecidableRel ((· < ·) : K → K → Prop)] :
    (∀ (m : List (K × V)) (k1 k2 : K), containsKey m k1 = false →
      HashMap.replace_key m k1 k2 = .err .OldKeyNotExist m)
    ∧ (∀ (m : List (K × V)) (k1 k2 : K), containsKey m k1 = false →
      BTreeMap.replace_key m k1 k2 = .err .OldKeyNotExist m)
    ∧ (∀ (m : List (K × V)) (k1 k2 : K), containsKey m k1 = false →
      IndexMap.replace_key m k1 k2 = .err .OldKeyNotExist m) :=
  ⟨hm_replace_key_of_old_absent, bt_replace_key_of_old_absent,
    im_replace_key_of_old_absent⟩

/-- C3 witness: `k1 = 3` absent, `k2 = 2` present — the call still fails with
`OldKeyNotExist` on all three containers and the maps are unchanged. -/
theorem claim_C3_wit :
    HashMap.replace_key [((1 : Nat), (10 : Nat)), (2, 20)] 3 2
        = .err .OldKeyNotExist [(1, 10), (2, 20)]
    ∧ BTreeMap.replace_key [((1 : Nat), (10 : Nat)), (2, 20)] 3 2
        = .err .OldKeyNotExist [(1, 10), (2, 20)]
    ∧ IndexMap.replace_key [((1 : Nat), (10 : Nat)), (2, 20)] 3 2
        = .err .OldKeyNotExist [(1, 10), (2, 20)] :=
  ⟨claim_C3.1 _ 3 2 (by decide), claim_C3.2.1 _ 3 2 (by decide),
    claim_C3.2.2 _ 3 2 (by decide)⟩

/-- C4: for each of the three containers, when `k1` and `k2` are both present
and distinct, `replace_key` fails with `ReplaceKeyErr::NewKeyOccupied` and
returns the container unchanged (no entry overwritten, removed, inserted or
repositioned). -/
theorem claim_C4 {K V : Type} [DecidableEq K] [LT K]
    [DecidableRel ((· < ·) : K → K → Prop)] :
    (∀ (m : List (K × V)) (k1 k2 : K), containsKey m k1 = true → k1 ≠ k2 →
      containsKey m k2 = true →
      HashMap.replace_key m k1 k2 = .err .NewKeyOccupied m)
    ∧ (∀ (m : List (K × V)) (k1 k2 : K), containsKey m k1 = true → k1 ≠ k2 →
      containsKey m k2 = true →
      BTreeMap.replace_key m k1 k2 = .err .NewKeyOccupied m)
    ∧ (∀ (m : List (K × V)) (k1 k2 : K), containsKey m k1 = true → k1 ≠ k2 →
      containsKey m k2 = true →
      IndexMap.replace_key m k1 k2 = .err .NewKeyOccupied m) :=
  ⟨hm_replace_key_of_occupied, bt_replace_key_of_occupied,
    im_replace_key_of_occupied⟩

/-- C4 witness: both keys present and distinct — `NewKeyOccupied` on all
three containers with the maps unchanged. -/
theorem claim_C4_wit :
    HashMap.replace_key [((1 : Nat), (10 : Nat)), (2, 20)] 1 2
        = .err .NewKeyOccupied [(1, 10), (2, 20)]
    ∧ BTreeMap.replace_key [((1 : Nat), (10 : Nat)), (2, 20)] 1 2
        = .err .NewKeyOccupied [(1, 10), (2, 20)]
    ∧ IndexMap.replace_key [((1 : Nat), (10 : Nat)), (2, 20)] 1 2
        = .err .NewKeyOccupied [(1, 10), (2, 20)] :=
  ⟨claim_C4.1 _ 1 2 (by decide) (by decide) (by decide),
    claim_C4.2.1 _ 1 2 (by decide) (by decide) (by decide),
    claim_C4.2.2 _ 1 2 (by decide) (by decide) (by decide)⟩

/-- C5: for each of the three containers, when `k1` is present and the two
keys compare equal, `replace_key` succeeds and returns the container
unchanged; since the resulting container is the input itself, repeating the
call gives the very same successful outcome (idempotent no-op). -/
theorem claim_C5 {K V : Type} [DecidableEq K] [LT K]
    [DecidableRel ((· < ·) : K → K → Prop)] :
    (∀ (m : List (K × V)) (k1 k2 : K), containsKey m k1 = true → k1 = k2 →
      HashMap.replace_key m k1 k2 = .ok m)
    ∧ (∀ (m : List (K × V)) (k1 k2 : K), containsKey m k1 = true → k1 = k2 →
      BTreeMap.replace_key m k1 k2 = .ok m)
    ∧ (∀ (m : List (K × V)) (k1 k2 : K), containsKey m k1 = true → k1 = k2 →
      IndexMap.replace_key m k1 k2 = .ok m) :=
  ⟨hm_replace_key_of_eq_keys, bt_replace_key_of_eq_keys,
    im_replace_key_of_eq_keys⟩

/-- C5 witness: renaming key 1 to itself succeeds and leaves the two-entry
map untouched on all three containers. -/
theorem claim_C5_wit :
    HashMap.replace_key [((1 : Nat), (10 : Nat)), (2, 20)] 1 1
        = .ok [(1, 10), (2, 20)]
    ∧ BTreeMap.replace_key [((1 : Nat), (10 : Nat)), (2, 20)] 1 1
        = .ok [(1, 10), (2, 20)]
    ∧ IndexMap.replace_key [((1 : Nat), (10 : Nat)), (2, 20)] 1 1
        = .ok [(1, 10), (2, 20)] :=
  ⟨claim_C5.1 _ 1 1 (by decide) rfl, claim_C5.2.1 _ 1 1 (by decide) rfl,
    claim_C5.2.2 _ 1 1 (by decide) rfl⟩

/-- C7: `replace_key` is deterministic on all three containers — it is a
pure function of the container and the two keys, so equal inputs give equal
results and equal final containers. -/
theorem claim_C7 {K V : Type} [DecidableEq K] [LT K]
    [DecidableRel ((· < ·) : K → K → Prop)] :
    (∀ (mA mB : List (K × V)) (k1A k1B k2A k2B : K),
      mA = mB → k1A = k1B → k2A = k2B →
      HashMap.replace_key mA k1A k2A = HashMap.replace_key mB k1B k2B)
    ∧ (∀ (mA mB : List (K × V)) (k1A k1B k2A k2B : K),
      mA = mB → k1A = k1B → k2A = k2B →
      BTreeMap.replace_key mA k1A k2A = BTreeMap.replace_key mB k1B k2B)
    ∧ (∀ (mA mB : List (K × V)) (k1A k1B k2A k2B : K),
      mA = mB → k1A = k1B → k2A = k2B →
      IndexMap.replace_key mA k1A k2A = IndexMap.replace_key mB k1B k2B) := by
  refine ⟨?_, ?_, ?_⟩ <;>
    · intro mA mB k1A k1B k2A k2B h1 h2 h3
      rw [h1, h2, h3]

/-- C7 witness: two calls with equal concrete inputs agree on all three
containers. -/
theorem claim_C7_wit :
    HashMap.replace_key [((1 : Nat), (10 : Nat))] 1 2
        = HashMap.replace_key [((1 : Nat), (10 : Nat))] 1 2
    ∧ BTreeMap.replace_key [((1 : Nat), (10 : Nat))] 1 2
        = BTreeMap.replace_key [((1 : Nat), (10 : Nat))] 1 2
    ∧ IndexMap.replace_key [((1 : Nat), (10 : Nat))] 1 2
        = IndexMap.replace_key [((1 : Nat), (10 : Nat))] 1 2 :=
  ⟨claim_C7.1 _ _ 1 1 2 2 rfl rfl rfl, claim_C7.2.1 _ _ 1 1 2 2 rfl rfl rfl,
    claim_C7.2.2 _ _ 1 1 2 2 rfl rfl rfl⟩

/-- C8 counterexample: the claim says the implementation exposes a permissive
`replace_key_overwrite` operation next to `replace_key`, but the `MapExt`
trait of `src/collections.rs` declares no such method. -/
theorem claim_C8_cex : "replace_key_overwrite" ∉ MapExt.methods := by
  decide

/-- C8 (amended): the implementation exposes only the strict, error-returning
`replace_key`; no permissive boolean `replace_key_overwrite` operation is
declared on the `MapExt` trait. -/
theorem claim_C8 :
    "replace_key" ∈ MapExt.methods ∧ "replace_key_overwrite" ∉ MapExt.methods := by
  decide

/-- C2: for each of the three containers, if `k1 ≠ k2`, `k1` is present with
value `v` and `k2` is absent, then `replace_key` succeeds and afterwards `k2`
maps to `v` while `k1` is no longer present. -/
theorem claim_C2 {K V : Type} [DecidableEq K] [LT K]
    [DecidableRel ((· < ·) : K → K → Prop)] :
    (∀ (m : List (K × V)) (k1 k2 : K) (v : V), WFmap m → k1 ≠ k2 →
      lookupKV m k1 = some v → lookupKV m k2 = none →
      (HashMap.replace_key m k1 k2).isOk = true
        ∧ (HashMap.replace_key m k1 k2).lookupEnd k2 = some v
        ∧ (HashMap.replace_key m k1 k2).lookupEnd k1 = none)
    ∧ (∀ (m : List (K × V)) (k1 k2 : K) (v : V), WFmap m → k1 ≠ k2 →
      lookupKV m k1 = some v → lookupKV m k2 = none →
      (BTreeMap.replace_key m k1 k2).isOk = true
        ∧ (BTreeMap.replace_key m k1 k2).lookupEnd k2 = some v
        ∧ (BTreeMap.replace_key m k1 k2).lookupEnd k1 = none)
    ∧ (∀ (m : List (K × V)) (k1 k2 : K) (v : V), WFmap m → k1 ≠ k2 →
      lookupKV m k1 = some v → lookupKV m k2 = none →
      (IndexMap.replace_key m k1 k2).isOk = true
        ∧ (IndexMap.replace_key m k1 k2).lookupEnd k2 = some v
        ∧ (IndexMap.replace_key m k1 k2).lookupEnd k1 = none) := by
  refine ⟨?_, ?_, ?_⟩
  · intro m k1 k2 v hwf hne h1 h2
    obtain ⟨m1, hrm, hres⟩ := hm_replace_key_success h1 hne h2
    rw [hres]
    refine ⟨rfl, ?_, ?_⟩
    · show lookupKV (HashMap.insert m1 k2 v) k2 = some v
      exact hm_lookup_insert_self m1 k2 v
    · show lookupKV (HashMap.insert m1 k2 v) k1 = none
      rw [hm_lookup_insert_ne m1 v hne]
      exact removeKV_lookup_self hwf hrm
  · intro m k1 k2 v hwf hne h1 h2
    obtain ⟨m1, hrm, hres⟩ := bt_replace_key_success h1 hne h2
    rw [hres]
    refine ⟨rfl, ?_, ?_⟩
    · show lookupKV (BTreeMap.insert m1 k2 v) k2 = some v
      exact bt_lookup_insert_self m1 k2 v
    · show lookupKV (BTreeMap.insert m1 k2 v) k1 = none
      rw [bt_lookup_insert_ne m1 v hne]
      exact removeKV_lookup_self hwf hrm
  · intro m k1 k2 v hwf hne h1 h2
    obtain ⟨i, hi⟩ := im_get_index_of_isSome (containsKey_eq_true_iff.mpr ⟨v, h1⟩)
    obtain ⟨v1, hv1, hl1⟩ := im_get_index_of_spec hi
    obtain rfl : v = v1 := by
      rw [h1] at hl1
      exact Option.some.inj hl1
    have hres := im_replace_key_success hi hv1 hne h2
    rw [hres]
    refine ⟨rfl, ?_, ?_⟩
    · show lookupKV (m.set i (k2, v)) k2 = some v
      exact im_lookup_set_fresh v hi h2
    · show lookupKV (m.set i (k2, v)) k1 = none
      exact im_lookup_set_old_none v hwf hi hne

/-- C2 witness: renaming key 1 to the fresh key 3 in `[(1, 10), (2, 20)]`
succeeds on all three containers, with key 3 mapped to 10 and key 1 gone. -/
theorem claim_C2_wit :
    ((HashMap.replace_key [((1 : Nat), (10 : Nat)), (2, 20)] 1 3).isOk = true
      ∧ (HashMap.replace_key [((1 : Nat), (10 : Nat)), (2, 20)] 1 3).lookupEnd 3 = some 10
      ∧ (HashMap.replace_key [((1 : Nat), (10 : Nat)), (2, 20)] 1 3).lookupEnd 1 = none)
    ∧ ((BTreeMap.replace_key [((1 : Nat), (10 : Nat)), (2, 20)] 1 3).isOk = true
      ∧ (BTreeMap.replace_key [((1 : Nat), (10 : Nat)), (2, 20)] 1 3).lookupEnd 3 = some 10
      ∧ (BTreeMap.replace_key [((1 : Nat), (10 : Nat)), (2, 20)] 1 3).lookupEnd 1 = none)
    ∧ ((IndexMap.replace_key [((1 : Nat), (10 : Nat)), (2, 20)] 1 3).isOk = true
      ∧ (IndexMap.replace_key [((1 : Nat), (10 : Nat)), (2, 20)] 1 3).lookupEnd 3 = some 10
      ∧ (IndexMap.replace_key [((1 : Nat), (10 : Nat)), (2, 20)] 1 3).lookupEnd 1 = none) :=
  ⟨claim_C2.1 [(1, 10), (2, 20)] 1 3 10 (by decide) (by decide) (by decide) (by decide),
    claim_C2.2.1 [(1, 10), (2, 20)] 1 3 10 (by decide) (by decide) (by decide) (by decide),
    claim_C2.2.2 [(1, 10), (2, 20)] 1 3 10 (by decide) (by decide) (by decide) (by decide)⟩

/-- C6: frame property — on every call, whatever the outcome, every entry
other than the one keyed `k1` is unaltered: for `HashMap`/`BTreeMap` its
key/value association is preserved, and for `IndexMap` the whole entry stays
at its positional index. -/
theorem claim_C6 {K V : Type} [DecidableEq K] [LT K]
    [DecidableRel ((· < ·) : K → K → Prop)] :
    (∀ (m : List (K × V)) (k1 k2 q : K) (w : V), q ≠ k1 → lookupKV m q = some w →
      (HashMap.replace_key m k1 k2).lookupEnd q = some w)
    ∧ (∀ (m : List (K × V)) (k1 k2 q : K) (w : V), q ≠ k1 → lookupKV m q = some w →
      (BTreeMap.replace_key m k1 k2).lookupEnd q = some w)
    ∧ (∀ (m : List (K × V)) (k1 k2 : K) (t : Nat) (p : K × V),
      m[t]? = some p → p.1 ≠ k1 →
      (IndexMap.replace_key m k1 k2).entryAtEnd t = some p) := by
  refine ⟨?_, ?_, ?_⟩
  · intro m k1 k2 q w hq hw
    rcases hm_replace_key_cases m k1 k2 with ⟨-, h⟩ | ⟨-, -, h⟩ | ⟨-, -, -, h⟩
      | ⟨v, m1, hv, hne, h2, hrm, h⟩
    · rw [h]; exact hw
    · rw [h]; exact hw
    · rw [h]; exact hw
    · rw [h]
      show lookupKV (HashMap.insert m1 k2 v) q = some w
      by_cases hqk2 : q = k2
      · subst hqk2
        rw [hw] at h2
        exact Option.noConfusion h2
      · rw [hm_lookup_insert_ne m1 v hqk2, removeKV_lookup_ne hrm hq]
        exact hw
  · intro m k1 k2 q w hq hw
    rcases bt_replace_key_cases m k1 k2 with ⟨-, h⟩ | ⟨-, -, h⟩ | ⟨-, -, -, h⟩
      | ⟨v, m1, hv, hne, h2, hrm, h⟩
    · rw [h]; exact hw
    · rw [h]; exact hw
    · rw [h]; exact hw
    · rw [h]
      show lookupKV (BTreeMap.insert m1 k2 v) q = some w
      by_cases hqk2 : q = k2
      · subst hqk2
        rw [hw] at h2
        exact Option.noConfusion h2
      · rw [bt_lookup_insert_ne m1 v hqk2, removeKV_lookup_ne hrm hq]
        exact hw
  · intro m k1 k2 t p hp hpk
    rcases im_replace_key_cases m k1 k2 with ⟨-, h⟩ | ⟨-, -, h⟩ | ⟨-, -, -, h⟩
      | ⟨i, v, hi, hv, hl, hne, h2, h⟩
    · rw [h]; exact hp
    · rw [h]; exact hp
    · rw [h]; exact hp
    · rw [h]
      show (m.set i (k2, v))[t]? = some p
      by_cases hti : t = i
      · subst hti
        rw [hp] at hv
        exact absurd (congrArg Prod.fst (Option.some.inj hv)) hpk
      · rw [List.getElem?_set_ne (fun hc => hti hc.symm)]
        exact hp

/-- C6 witness: renaming key 1 to 3 leaves the unrelated entry `(2, 20)`
untouched — same key and value on all three containers, and on the
`IndexMap` it also stays at positional index 1. -/
theorem claim_C6_wit :
    (HashMap.replace_key [((1 : Nat), (10 : Nat)), (2, 20)] 1 3).lookupEnd 2 = some 20
    ∧ (BTreeMap.replace_key [((1 : Nat), (10 : Nat)), (2, 20)] 1 3).lookupEnd 2 = some 20
    ∧ (IndexMap.replace_key [((1 : Nat), (10 : Nat)), (2, 20)] 1 3).entryAtEnd 1
      = some (2, 20) :=
  ⟨claim_C6.1 [(1, 10), (2, 20)] 1 3 2 20 (by decide) (by decide),
    claim_C6.2.1 [(1, 10), (2, 20)] 1 3 2 20 (by decide) (by decide),
    claim_C6.2.2 [(1, 10), (2, 20)] 1 3 1 (2, 20) (by decide) (by decide)⟩

/-- C9: the panic branches are unreachable — `replace_key` never panics on
`HashMap`/`BTreeMap` (the `.expect` on `remove` always sees `Some`), the
second `OldKeyNotExist` branch of the `IndexMap` implementation is dead
(`swap_remove_index` succeeds at any index coming from `get_index_of`), and
the `IndexMap` version never panics either; so `replace_key` is total. -/
theorem claim_C9 {K V : Type} [DecidableEq K] [LT K]
    [DecidableRel ((· < ·) : K → K → Prop)] :
    (∀ (m : List (K × V)) (k1 k2 : K), HashMap.replace_key m k1 k2 ≠ .panic)
    ∧ (∀ (m : List (K × V)) (k1 k2 : K), BTreeMap.replace_key m k1 k2 ≠ .panic)
    ∧ (∀ (m : List (K × V)) (k : K) (i : Nat), IndexMap.get_index_of m k = some i →
      (IndexMap.swap_remove_index m i).isSome = true)
    ∧ (∀ (m : List (K × V)) (k1 k2 : K), IndexMap.replace_key m k1 k2 ≠ .panic) := by
  refine ⟨?_, ?_, ?_, ?_⟩
  · intro m k1 k2
    rcases hm_replace_key_cases m k1 k2 with ⟨-, h⟩ | ⟨-, -, h⟩ | ⟨-, -, -, h⟩
      | ⟨v, m1, -, -, -, -, h⟩ <;> simp [h]
  · intro m k1 k2
    rcases bt_replace_key_cases m k1 k2 with ⟨-, h⟩ | ⟨-, -, h⟩ | ⟨-, -, -, h⟩
      | ⟨v, m1, -, -, -, -, h⟩ <;> simp [h]
  · intro m k i hi
    exact im_swap_remove_index_isSome (im_get_index_of_lt_length hi)
  · intro m k1 k2
    rcases im_replace_key_cases m k1 k2 with ⟨-, h⟩ | ⟨-, -, h⟩ | ⟨-, -, -, h⟩
      | ⟨i, v, -, -, -, -, -, h⟩ <;> simp [h]

/-- C9 witness: a concrete no-panic instance for each container, and a
concrete successful `swap_remove_index` at an index from `get_index_of`. -/
theorem claim_C9_wit :
    HashMap.replace_key [((1 : Nat), (10 : Nat))] 1 2 ≠ .panic
    ∧ BTreeMap.replace_key [((1 : Nat), (10 : Nat))] 1 2 ≠ .panic
    ∧ (IndexMap.swap_remove_index [((1 : Nat), (10 : Nat)), (2, 20)] 1).isSome = true
    ∧ IndexMap.replace_key [((1 : Nat), (10 : Nat))] 1 2 ≠ .panic :=
  ⟨claim_C9.1 [(1, 10)] 1 2, claim_C9.2.1 [(1, 10)] 1 2,
    claim_C9.2.2.1 [(1, 10), (2, 20)] 2 1 (by decide),
    claim_C9.2.2.2 [(1, 10)] 1 2⟩

/-- C10: on every call and for every outcome, the number of entries after the
call equals the number before it — a rename never grows or shrinks any of the
three containers. -/
theorem claim_C10 {K V : Type} [DecidableEq K] [LT K]
    [DecidableRel ((· < ·) : K → K → Prop)] :
    (∀ (m : List (K × V)) (k1 k2 : K),
      (HashMap.replace_key m k1 k2).lengthEnd = some m.length)
    ∧ (∀ (m : List (K × V)) (k1 k2 : K),
      (BTreeMap.replace_key m k1 k2).lengthEnd = some m.length)
    ∧ (∀ (m : List (K × V)) (k1 k2 : K),
      (IndexMap.replace_key m k1 k2).lengthEnd = some m.length) := by
  refine ⟨?_, ?_, ?_⟩
  · intro m k1 k2
    rcases hm_replace_key_cases m k1 k2 with ⟨-, h⟩ | ⟨-, -, h⟩ | ⟨-, -, -, h⟩
      | ⟨v, m1, hv, hne, h2, hrm, h⟩
    · rw [h]; rfl
    · rw [h]; rfl
    · rw [h]; rfl
    · rw [h]
      show some (HashMap.insert m1 k2 v).length = some m.length
      have hm1k2 : lookupKV m1 k2 = none := by
        rw [removeKV_lookup_ne hrm (Ne.symm hne)]
        exact h2
      rw [hm_length_insert m1 v hm1k2, removeKV_length hrm]
  · intro m k1 k2
    rcases bt_replace_key_cases m k1 k2 with ⟨-, h⟩ | ⟨-, -, h⟩ | ⟨-, -, -, h⟩
      | ⟨v, m1, hv, hne, h2, hrm, h⟩
    · rw [h]; rfl
    · rw [h]; rfl
    · rw [h]; rfl
    · rw [h]
      show some (BTreeMap.insert m1 k2 v).length = some m.length
      have hm1k2 : lookupKV m1 k2 = none := by
        rw [removeKV_lookup_ne hrm (Ne.symm hne)]
        exact h2
      rw [bt_length_insert m1 v hm1k2, removeKV_length hrm]
  · intro m k1 k2
    rcases im_replace_key_cases m k1 k2 with ⟨-, h⟩ | ⟨-, -, h⟩ | ⟨-, -, -, h⟩
      | ⟨i, v, -, -, -, -, -, h⟩
    · rw [h]; rfl
    · rw [h]; rfl
    · rw [h]; rfl
    · rw [h]
      show some (m.set i (k2, v)).length = some m.length
      simp
